import Mathlib

/-!
Shallow embedding of `PropertyPlot._plotRound` and the argument validation of
`PropertyPlot.calc_isolines` from `src/CoolProp/Plots/Plots.py`.

Numbers are modelled as exact rationals (IEEE doubles are rationals; the
embedding idealises the float `log10` as the exact base-10 logarithm).
`numpy.around(x)` is round-half-to-even; `numpy.around(x, decimals=d)` is
`round-half-even(x * 10^d) / 10^d`.  `numpy.around(numpy.log10(x))` for a
positive rational `x` is the integer nearest to `log10 x` (an exact tie
`log10 x = r + 1/2` is impossible for rational `x`); it is computed here from
`Int.log 10 x = ⌊log10 x⌋` by rounding up exactly when `x^2` is at least
`10 ^ (2 * ⌊log10 x⌋ + 1)`.  For the input `0.0`, numpy produces
`log10 0 = -inf`, so `around(-inf) * -1 + digits + 1 = +inf`, which the
clamp `numpy.where(val < lim, val, lim)` turns into `10`; the embedding
makes that propagation explicit with a `q = 0` branch.
-/

namespace CoolPlot

/-- Round-half-to-even on rationals: the tie rule of `numpy.around`. -/
def rnd (x : ℚ) : ℤ :=
  if x - ⌊x⌋ < 1/2 then ⌊x⌋
  else if 1/2 < x - ⌊x⌋ then ⌊x⌋ + 1
  else if 2 ∣ ⌊x⌋ then ⌊x⌋ else ⌊x⌋ + 1

/-- `numpy.around(q, decimals=d)` (Plots.py line 106). -/
def roundTo (d : ℤ) (q : ℚ) : ℚ := (rnd (q * 10 ^ d) : ℚ) / 10 ^ d

/-- `numpy.around(numpy.log10 x)` for `x > 0` (Plots.py line 101):
the nearest integer to `log10 x`, via `Int.log 10 x = ⌊log10 x⌋`. -/
def roundLog10 (x : ℚ) : ℤ :=
  if x ^ 2 < (10:ℚ) ^ (2 * Int.log 10 x + 1) then Int.log 10 x else Int.log 10 x + 1

/-- Per-value decimal place (Plots.py lines 101-103):
`(around(log10 |q|) * -1) + digits + 1`, then `min · 10`, then `max · (-10)`.
The `q = 0` branch is the explicit form of numpy's `-inf` propagation:
`log10 0 = -inf`, so the pre-clamp value is `+inf` and the clamp gives `10`. -/
def decPlace (digits : ℤ) (q : ℚ) : ℤ :=
  if q = 0 then 10 else max (min (-(roundLog10 |q|) + digits + 1) 10) (-10)

/-- The decimal-place formula as the SPEC words it (`spec.md` section 4.1,
step 2): `-floor(log10(|value|)) + digits + 1`, clamped to the same bounds.
This definition exists only to be compared against `decPlace`, which embeds
the source (the source rounds `log10` to the nearest integer, it does not
take its floor). -/
def decPlaceSpec (digits : ℤ) (q : ℚ) : ℤ :=
  if q = 0 then 10 else max (min (-(Int.log 10 |q|) + digits + 1) 10) (-10)

/-- One rounding pass (Plots.py lines 104-106): round every value of the
list to its own computed decimal place. -/
def roundPass (digits : ℤ) (l : List ℚ) : List ℚ :=
  l.map (fun v => roundTo (decPlace digits v) v)

/-- Insert a value into a strictly sorted list, dropping it if present. -/
def insertSortedUnique (x : ℚ) : List ℚ → List ℚ
  | [] => [x]
  | y :: ys =>
    if x < y then x :: y :: ys
    else if x = y then y :: ys
    else y :: insertSortedUnique x ys

/-- `numpy.unique(numpy.sort(...))` (Plots.py lines 91 and 107): the sorted
list of the distinct values. -/
def uniqueSorted (l : List ℚ) : List ℚ := l.foldr insertSortedUnique []

/-- The `while` loop of Plots.py lines 99-107:
`while len(inVal) > len(output) and digits < limit`, with `limit = 10`;
each pass increments `digits`, rounds every value at its own decimal place
and deduplicates.  The fuel argument is structural bookkeeping only: the
guard `digits < 10` exits the loop after at most `(10 - digits).toNat + 1`
passes, so any fuel of at least `11 - digits` gives the loop's exact
behaviour (`plotRound` starts at `digits = -1` with fuel `12`). -/
def plotRoundGo (inVal : List ℚ) : ℕ → ℤ → List ℚ → List ℚ
  | 0, _, output => output
  | fuel + 1, digits, output =>
    if inVal.length > output.length ∧ digits < 10 then
      plotRoundGo inVal fuel (digits + 1) (uniqueSorted (roundPass (digits + 1) inVal))
    else output

/-- `PropertyPlot._plotRound` (Plots.py lines 83-108).
`inVal = unique(sort(values))`; the initial `output = inVal[1:] * 0.0` is a
list of zeros one shorter than `inVal`; `digits` starts at `-1`. -/
def plotRound (values : List ℚ) : List ℚ :=
  plotRoundGo (uniqueSorted values) 12 (-1)
    (((uniqueSorted values).drop 1).map (fun _ => 0))

/-- Same loop as `plotRoundGo`, returning the number of executed passes
(attempts) instead of the final output. -/
def plotRoundGoCount (inVal : List ℚ) : ℕ → ℤ → List ℚ → ℕ
  | 0, _, _ => 0
  | fuel + 1, digits, output =>
    if inVal.length > output.length ∧ digits < 10 then
      plotRoundGoCount inVal fuel (digits + 1) (uniqueSorted (roundPass (digits + 1) inVal)) + 1
    else 0

/-- Number of rounding passes `_plotRound` performs on `values`. -/
def plotRoundCount (values : List ℚ) : ℕ :=
  plotRoundGoCount (uniqueSorted values) 12 (-1)
    (((uniqueSorted values).drop 1).map (fun _ => 0))

/-- The argument validation at the top of `PropertyPlot.calc_isolines`
(Plots.py lines 117-124).  `iso_range = none` models `iso_range is None`;
`num = none` models `num is None` (its Python default is `15`).  Returns
`some message` when the Python code raises `ValueError`, `none` when
execution proceeds past the two guards. -/
def calcIsolinesGuard : Option (List ℚ) → Option ℤ → Option String
  | Option.none, _ =>
    some "ValueError: Automatic interval detection for isoline boundaries is not supported yet"
  | some r, num =>
    if r.length = 1 ∧ num ≠ some 1 then
      some "ValueError: Automatic interval detection for isoline boundaries is not supported yet"
    else if r.length = 2 ∧ num = Option.none then
      some "ValueError: Please specify the number of isoline you want e.g. num=10"
    else Option.none

/-- `calc_isolines` with its state threaded explicitly: the guards run
first; only when both pass does the remainder of the method (`body`, which
covers everything from line 126 on, including every write to
`self._isolines`) run on the state.  A raised `ValueError` therefore
returns the state unchanged, paired with the error. -/
def calcIsolinesRun {σ : Type} (body : σ → σ) (st : σ)
    (iso_range : Option (List ℚ)) (num : Option ℤ) : σ × Option String :=
  match calcIsolinesGuard iso_range num with
  | some e => (st, some e)
  | Option.none => (body st, Option.none)

/-! ### Properties of `insertSortedUnique` and `uniqueSorted` -/

theorem mem_insertSortedUnique (a x : ℚ) (l : List ℚ) :
    a ∈ insertSortedUnique x l ↔ a = x ∨ a ∈ l := by
  induction l with
  | nil => simp [insertSortedUnique]
  | cons y ys ih =>
    by_cases h1 : x < y
    · simp [insertSortedUnique, h1]
    · by_cases h2 : x = y
      · subst h2
        simp only [insertSortedUnique, lt_self_iff_false, if_false, if_pos rfl]
        constructor
        · intro h; exact Or.inr h
        · rintro (rfl | h) <;> simp_all
      · simp only [insertSortedUnique, if_neg h1, if_neg h2, List.mem_cons, ih]
        tauto

theorem insertSortedUnique_sorted (x : ℚ) (l : List ℚ)
    (h : List.Sorted (· < ·) l) :
    List.Sorted (· < ·) (insertSortedUnique x l) := by
  induction l with
  | nil => simp [insertSortedUnique]
  | cons y ys ih =>
    rw [List.sorted_cons] at h
    by_cases h1 : x < y
    · simp only [insertSortedUnique, if_pos h1, List.sorted_cons]
      refine ⟨?_, ?_⟩
      · intro b hb
        rcases List.mem_cons.mp hb with rfl | hb
        · exact h1
        · exact h1.trans (h.1 b hb)
      · exact h
    · by_cases h2 : x = y
      · simp only [insertSortedUnique, if_neg h1, if_pos h2, List.sorted_cons]
        exact h
      · simp only [insertSortedUnique, if_neg h1, if_neg h2, List.sorted_cons]
        refine ⟨?_, ih h.2⟩
        intro b hb
        rcases (mem_insertSortedUnique b x ys).mp hb with rfl | hb
        · exact lt_of_le_of_ne (not_lt.mp h1) (fun he => h2 he.symm)
        · exact h.1 b hb

theorem length_insertSortedUnique_le (x : ℚ) (l : List ℚ) :
    (insertSortedUnique x l).length ≤ l.length + 1 := by
  induction l with
  | nil => simp [insertSortedUnique]
  | cons y ys ih =>
    by_cases h1 : x < y
    · simp [insertSortedUnique, h1]
    · by_cases h2 : x = y
      · simp only [insertSortedUnique, if_neg h1, if_pos h2, List.length_cons]
        omega
      · simp only [insertSortedUnique, if_neg h1, if_neg h2, List.length_cons]
        omega

theorem length_insertSortedUnique_of_not_mem (x : ℚ) (l : List ℚ)
    (hx : x ∉ l) : (insertSortedUnique x l).length = l.length + 1 := by
  induction l with
  | nil => simp [insertSortedUnique]
  | cons y ys ih =>
    simp only [List.mem_cons, not_or] at hx
    by_cases h1 : x < y
    · simp [insertSortedUnique, h1]
    · rw [insertSortedUnique, if_neg h1, if_neg hx.1]
      simp only [List.length_cons, ih hx.2]

theorem mem_uniqueSorted (a : ℚ) (l : List ℚ) :
    a ∈ uniqueSorted l ↔ a ∈ l := by
  induction l with
  | nil => simp [uniqueSorted]
  | cons y ys ih =>
    show a ∈ insertSortedUnique y (uniqueSorted ys) ↔ _
    rw [mem_insertSortedUnique, ih, List.mem_cons]

theorem uniqueSorted_sorted (l : List ℚ) :
    List.Sorted (· < ·) (uniqueSorted l) := by
  induction l with
  | nil => simp [uniqueSorted]
  | cons y ys ih => exact insertSortedUnique_sorted y (uniqueSorted ys) ih

theorem uniqueSorted_nodup (l : List ℚ) : (uniqueSorted l).Nodup :=
  (uniqueSorted_sorted l).nodup

theorem uniqueSorted_length_le (l : List ℚ) :
    (uniqueSorted l).length ≤ l.length := by
  induction l with
  | nil => simp [uniqueSorted]
  | cons y ys ih =>
    calc (insertSortedUnique y (uniqueSorted ys)).length
        ≤ (uniqueSorted ys).length + 1 := length_insertSortedUnique_le _ _
      _ ≤ ys.length + 1 := by omega

theorem uniqueSorted_length_of_nodup (l : List ℚ) (h : l.Nodup) :
    (uniqueSorted l).length = l.length := by
  induction l with
  | nil => simp [uniqueSorted]
  | cons y ys ih =>
    rw [List.nodup_cons] at h
    have hy : y ∉ uniqueSorted ys := fun hm => h.1 ((mem_uniqueSorted y ys).mp hm)
    show (insertSortedUnique y (uniqueSorted ys)).length = ys.length + 1
    rw [length_insertSortedUnique_of_not_mem y _ hy, ih h.2]

theorem sorted_eq_of_mem_iff {l₁ l₂ : List ℚ}
    (h₁ : List.Sorted (· < ·) l₁) (h₂ : List.Sorted (· < ·) l₂)
    (hm : ∀ a, a ∈ l₁ ↔ a ∈ l₂) : l₁ = l₂ := by
  induction l₁ generalizing l₂ with
  | nil =>
    cases l₂ with
    | nil => rfl
    | cons b bs => exact absurd ((hm b).mpr (List.mem_cons_self b bs)) (by simp)
  | cons a as ih =>
    cases l₂ with
    | nil => exact absurd ((hm a).mp (List.mem_cons_self a as)) (by simp)
    | cons b bs =>
      rw [List.sorted_cons] at h₁ h₂
      have hab : a = b := by
        rcases List.mem_cons.mp ((hm a).mp (List.mem_cons_self a as)) with h | h
        · exact h
        · rcases List.mem_cons.mp ((hm b).mpr (List.mem_cons_self b bs)) with h' | h'
          · exact h'.symm
          · exact absurd (lt_trans (h₂.1 a h) (h₁.1 b h')) (lt_irrefl b)
      subst hab
      have hm' : ∀ x, x ∈ as ↔ x ∈ bs := by
        intro x
        constructor
        · intro hx
          rcases List.mem_cons.mp ((hm x).mp (List.mem_cons.mpr (Or.inr hx))) with rfl | h
          · exact absurd (h₁.1 x hx) (lt_irrefl x)
          · exact h
        · intro hx
          rcases List.mem_cons.mp ((hm x).mpr (List.mem_cons.mpr (Or.inr hx))) with rfl | h
          · exact absurd (h₂.1 x hx) (lt_irrefl x)
          · exact h
      rw [ih h₁.2 h₂.2 hm']

theorem uniqueSorted_eq_self {l : List ℚ} (h : List.Sorted (· < ·) l) :
    uniqueSorted l = l :=
  sorted_eq_of_mem_iff (uniqueSorted_sorted l) h (fun a => mem_uniqueSorted a l)

theorem uniqueSorted_mem_iff_eq {l₁ l₂ : List ℚ}
    (hm : ∀ a, a ∈ l₁ ↔ a ∈ l₂) : uniqueSorted l₁ = uniqueSorted l₂ :=
  sorted_eq_of_mem_iff (uniqueSorted_sorted l₁) (uniqueSorted_sorted l₂)
    (fun a => by rw [mem_uniqueSorted, mem_uniqueSorted]; exact hm a)

/-! ### Properties of `rnd`, `roundTo`, `roundLog10` and `decPlace` -/

theorem rnd_intCast (m : ℤ) : rnd (m : ℚ) = m := by
  have hf : ⌊(m : ℚ)⌋ = m := Int.floor_intCast m
  rw [rnd, hf]
  norm_num

theorem roundTo_exact {d : ℤ} {q : ℚ} {m : ℤ} (h : q * 10 ^ d = (m : ℚ)) :
    roundTo d q = q := by
  have hd : ((10:ℚ) ^ d) ≠ 0 := zpow_ne_zero d (by norm_num)
  rw [roundTo, h, rnd_intCast, ← h, mul_div_assoc, div_self hd, mul_one]

theorem rnd_eq_of_lt_half {x : ℚ} {m : ℤ} (h1 : (m : ℚ) ≤ x)
    (h2 : x < (m : ℚ) + 1/2) : rnd x = m := by
  have hf : ⌊x⌋ = m := Int.floor_eq_iff.mpr ⟨h1, by linarith⟩
  rw [rnd, hf]
  rw [if_pos (by linarith)]

theorem rnd_eq_of_half_lt {x : ℚ} {m : ℤ} (h1 : (m : ℚ) + 1/2 < x)
    (h2 : x < (m : ℚ) + 1) : rnd x = m + 1 := by
  have hf : ⌊x⌋ = m := Int.floor_eq_iff.mpr ⟨by linarith, by linarith⟩
  rw [rnd, hf]
  rw [if_neg (by linarith), if_pos (by linarith)]

theorem roundTo_eval_lo {d : ℤ} {q : ℚ} {m : ℤ} (h1 : (m : ℚ) ≤ q * 10 ^ d)
    (h2 : q * 10 ^ d < (m : ℚ) + 1/2) : roundTo d q = (m : ℚ) / 10 ^ d := by
  rw [roundTo, rnd_eq_of_lt_half h1 h2]

theorem roundTo_eval_hi {d : ℤ} {q : ℚ} {m : ℤ}
    (h1 : (m : ℚ) + 1/2 < q * 10 ^ d) (h2 : q * 10 ^ d < (m : ℚ) + 1) :
    roundTo d q = ((m : ℚ) + 1) / 10 ^ d := by
  rw [roundTo, rnd_eq_of_half_lt h1 h2]
  push_cast
  ring_nf

theorem int_log10_eq {q : ℚ} {k : ℤ} (hq : 0 < q)
    (h1 : (10:ℚ) ^ k ≤ q) (h2 : q < (10:ℚ) ^ (k + 1)) : Int.log 10 q = k := by
  have hb : 1 < 10 := by norm_num
  have ha := (Int.zpow_le_iff_le_log hb hq).mp (by exact_mod_cast h1)
  have hc := (Int.lt_zpow_iff_log_lt hb hq).mp (by exact_mod_cast h2)
  omega

theorem roundLog10_bounds {x : ℚ} (hx : 0 < x) :
    (10:ℚ) ^ (2 * roundLog10 x - 1) ≤ x ^ 2 ∧
      x ^ 2 < (10:ℚ) ^ (2 * roundLog10 x + 1) := by
  have hb : (1:ℕ) < 10 := by norm_num
  have hlo : ((10:ℕ):ℚ) ^ Int.log 10 x ≤ x := Int.zpow_log_le_self hb hx
  have hhi : x < ((10:ℕ):ℚ) ^ (Int.log 10 x + 1) := Int.lt_zpow_succ_log_self hb x
  have hcast : ((10:ℕ):ℚ) = (10:ℚ) := by norm_num
  rw [hcast] at hlo hhi
  set f := Int.log 10 x with hf
  have hfpos : (0:ℚ) < (10:ℚ) ^ f := zpow_pos (by norm_num) f
  by_cases h : x ^ 2 < (10:ℚ) ^ (2 * f + 1)
  · rw [roundLog10, ← hf, if_pos h]
    refine ⟨?_, h⟩
    calc (10:ℚ) ^ (2 * f - 1) ≤ (10:ℚ) ^ (2 * f) :=
          zpow_le_zpow_right₀ (by norm_num) (by omega)
      _ = (10:ℚ) ^ f * (10:ℚ) ^ f := by
          rw [← zpow_add₀ (by norm_num : (10:ℚ) ≠ 0)]; ring_nf
      _ ≤ x * x := by
          apply mul_le_mul hlo hlo (le_of_lt hfpos) (le_trans (le_of_lt hfpos) hlo)
      _ = x ^ 2 := by ring
  · rw [roundLog10, ← hf, if_neg h]
    refine ⟨?_, ?_⟩
    · have : (10:ℚ) ^ (2 * (f + 1) - 1) = (10:ℚ) ^ (2 * f + 1) := by ring_nf
      rw [this]
      exact not_lt.mp h
    · calc x ^ 2 = x * x := by ring
        _ < (10:ℚ) ^ (f + 1) * (10:ℚ) ^ (f + 1) := by
            apply mul_lt_mul' (le_of_lt hhi) hhi (le_of_lt hx)
            exact zpow_pos (by norm_num) _
        _ = (10:ℚ) ^ (2 * f + 2) := by
            rw [← zpow_add₀ (by norm_num : (10:ℚ) ≠ 0)]; ring_nf
        _ ≤ (10:ℚ) ^ (2 * (f + 1) + 1) :=
            zpow_le_zpow_right₀ (by norm_num) (by omega)

theorem roundLog10_eq {x : ℚ} {r : ℤ} (hx : 0 < x)
    (h1 : (10:ℚ) ^ (2 * r - 1) ≤ x ^ 2) (h2 : x ^ 2 < (10:ℚ) ^ (2 * r + 1)) :
    roundLog10 x = r := by
  obtain ⟨hl, hh⟩ := roundLog10_bounds hx
  set s := roundLog10 x with hs
  by_contra hne
  rcases lt_or_gt_of_ne hne with hlt | hgt
  · have hmono : (10:ℚ) ^ (2 * s + 1) ≤ (10:ℚ) ^ (2 * r - 1) :=
      zpow_le_zpow_right₀ (by norm_num) (by omega)
    exact absurd (lt_of_lt_of_le hh (hmono.trans h1)) (lt_irrefl _)
  · have hmono : (10:ℚ) ^ (2 * r + 1) ≤ (10:ℚ) ^ (2 * s - 1) :=
      zpow_le_zpow_right₀ (by norm_num) (by omega)
    exact absurd (lt_of_lt_of_le h2 (hmono.trans hl)) (lt_irrefl _)

theorem decPlace_eval {digits r : ℤ} {q : ℚ} (hq : q ≠ 0)
    (h1 : (10:ℚ) ^ (2 * r - 1) ≤ q ^ 2) (h2 : q ^ 2 < (10:ℚ) ^ (2 * r + 1)) :
    decPlace digits q = max (min (-r + digits + 1) 10) (-10) := by
  have habs : |q| ^ 2 = q ^ 2 := sq_abs q
  rw [decPlace, if_neg hq,
    roundLog10_eq (abs_pos.mpr hq) (by rw [habs]; exact h1) (by rw [habs]; exact h2)]

/-! ### Properties of the rounding loop -/

theorem plotRoundGo_succ (inVal : List ℚ) (fuel : ℕ) (digits : ℤ) (output : List ℚ) :
    plotRoundGo inVal (fuel + 1) digits output =
      if inVal.length > output.length ∧ digits < 10 then
        plotRoundGo inVal fuel (digits + 1) (uniqueSorted (roundPass (digits + 1) inVal))
      else output := rfl

theorem plotRoundGoCount_succ (inVal : List ℚ) (fuel : ℕ) (digits : ℤ) (output : List ℚ) :
    plotRoundGoCount inVal (fuel + 1) digits output =
      if inVal.length > output.length ∧ digits < 10 then
        plotRoundGoCount inVal fuel (digits + 1) (uniqueSorted (roundPass (digits + 1) inVal)) + 1
      else 0 := rfl

theorem plotRoundGo_exit (inVal : List ℚ) (fuel : ℕ) (digits : ℤ) (output : List ℚ)
    (h : output.length = inVal.length) :
    plotRoundGo inVal fuel digits output = output := by
  cases fuel with
  | zero => rfl
  | succ f => rw [plotRoundGo_succ, if_neg (by omega)]

theorem roundPass_length (digits : ℤ) (l : List ℚ) :
    (roundPass digits l).length = l.length := List.length_map l _

theorem plotRoundGo_length_le (inVal : List ℚ) :
    ∀ (fuel : ℕ) (digits : ℤ) (output : List ℚ), output.length ≤ inVal.length →
      (plotRoundGo inVal fuel digits output).length ≤ inVal.length := by
  intro fuel
  induction fuel with
  | zero => intro digits output h; exact h
  | succ f ih =>
    intro digits output h
    rw [plotRoundGo_succ]
    split
    · exact ih (digits + 1) _
        (le_trans (uniqueSorted_length_le _) (le_of_eq (roundPass_length _ _)))
    · exact h

theorem plotRoundGo_length_eq (inVal : List ℚ) :
    ∀ (fuel : ℕ) (digits : ℤ) (output : List ℚ), 10 - digits < (fuel : ℤ) →
      output.length ≤ inVal.length →
      (∃ d : ℤ, digits < d ∧ d ≤ 10 ∧ (roundPass d inVal).Nodup) →
      (plotRoundGo inVal fuel digits output).length = inVal.length := by
  intro fuel
  induction fuel with
  | zero =>
    intro digits output hfu _ hex
    obtain ⟨d, hd1, hd2, _⟩ := hex
    omega
  | succ f ih =>
    intro digits output hfu hle hex
    obtain ⟨d, hd1, hd2, hnd⟩ := hex
    by_cases hout : output.length = inVal.length
    · rw [plotRoundGo_exit inVal _ _ _ hout]; exact hout
    · have hlt : output.length < inVal.length := lt_of_le_of_ne hle hout
      rw [plotRoundGo_succ, if_pos ⟨hlt, by omega⟩]
      by_cases hnodup : (roundPass (digits + 1) inVal).Nodup
      · have hlen : (uniqueSorted (roundPass (digits + 1) inVal)).length = inVal.length := by
          rw [uniqueSorted_length_of_nodup _ hnodup, roundPass_length]
        rw [plotRoundGo_exit inVal _ _ _ hlen]
        exact hlen
      · have hdd : digits + 1 < d := by
          rcases lt_or_eq_of_le (by omega : digits + 1 ≤ d) with h | h
          · exact h
          · exact absurd (h ▸ hnd) hnodup
        exact ih (digits + 1) _ (by omega)
          (le_trans (uniqueSorted_length_le _) (le_of_eq (roundPass_length _ _)))
          ⟨d, hdd, hd2, hnd⟩

theorem reprInv_pass (values inVal : List ℚ) (hsub : ∀ v ∈ inVal, v ∈ values)
    (d : ℤ) (h0 : 0 ≤ d) (h10 : d ≤ 10) :
    List.Sorted (· < ·) (uniqueSorted (roundPass d inVal)) ∧
      ∀ y ∈ uniqueSorted (roundPass d inVal),
        ∃ v, v ∈ values ∧ ∃ e : ℤ, 0 ≤ e ∧ e ≤ 10 ∧ y = roundTo (decPlace e v) v := by
  refine ⟨uniqueSorted_sorted _, ?_⟩
  intro y hy
  rw [mem_uniqueSorted] at hy
  obtain ⟨v, hv, hvy⟩ := List.mem_map.mp hy
  exact ⟨v, hsub v hv, d, h0, h10, hvy.symm⟩

theorem plotRoundGo_inv (values inVal : List ℚ) (hsub : ∀ v ∈ inVal, v ∈ values) :
    ∀ (fuel : ℕ) (digits : ℤ) (output : List ℚ), -1 ≤ digits →
      (List.Sorted (· < ·) output ∧
        ∀ y ∈ output, ∃ v, v ∈ values ∧ ∃ e : ℤ, 0 ≤ e ∧ e ≤ 10 ∧
          y = roundTo (decPlace e v) v) →
      List.Sorted (· < ·) (plotRoundGo inVal fuel digits output) ∧
        ∀ y ∈ plotRoundGo inVal fuel digits output,
          ∃ v, v ∈ values ∧ ∃ e : ℤ, 0 ≤ e ∧ e ≤ 10 ∧ y = roundTo (decPlace e v) v := by
  intro fuel
  induction fuel with
  | zero => intro digits output _ hP; exact hP
  | succ f ih =>
    intro digits output hdig hP
    rw [plotRoundGo_succ]
    split
    · rename_i hcond
      exact ih (digits + 1) _ (by omega)
        (reprInv_pass values inVal hsub (digits + 1) (by omega) (by omega))
    · exact hP

theorem plotRoundGoCount_le (inVal : List ℚ) :
    ∀ (fuel : ℕ) (digits : ℤ) (output : List ℚ),
      plotRoundGoCount inVal fuel digits output ≤ (10 - digits).toNat := by
  intro fuel
  induction fuel with
  | zero => intro digits output; simp [plotRoundGoCount]
  | succ f ih =>
    intro digits output
    rw [plotRoundGoCount_succ]
    split
    · rename_i hcond
      have := ih (digits + 1) (uniqueSorted (roundPass (digits + 1) inVal))
      omega
    · omega

theorem plotRoundGoCount_exhaust (inVal : List ℚ) :
    ∀ (fuel : ℕ) (digits : ℤ) (output : List ℚ), 10 - digits < (fuel : ℤ) →
      output.length < inVal.length →
      (∀ d : ℤ, digits < d → d ≤ 10 →
        (uniqueSorted (roundPass d inVal)).length < inVal.length) →
      plotRoundGoCount inVal fuel digits output = (10 - digits).toNat := by
  intro fuel
  induction fuel with
  | zero =>
    intro digits output hfu _ _
    simp only [plotRoundGoCount]
    omega
  | succ f ih =>
    intro digits output hfu hout hall
    by_cases hd : digits < 10
    · rw [plotRoundGoCount_succ, if_pos ⟨hout, hd⟩]
      rw [ih (digits + 1) _ (by omega) (hall (digits + 1) (by omega) (by omega))
        (fun d hd1 hd2 => hall d (by omega) hd2)]
      omega
    · rw [plotRoundGoCount_succ, if_neg (fun hc => hd hc.2)]
      omega

theorem insertSortedUnique_ne_nil (x : ℚ) (l : List ℚ) :
    insertSortedUnique x l ≠ [] := by
  cases l with
  | nil => simp [insertSortedUnique]
  | cons y ys =>
    rw [insertSortedUnique]
    split
    · simp
    · split <;> simp

theorem uniqueSorted_eq_nil_iff (l : List ℚ) : uniqueSorted l = [] ↔ l = [] := by
  cases l with
  | nil => simp [uniqueSorted]
  | cons y ys =>
    simp only [uniqueSorted, List.foldr_cons]
    exact ⟨fun h => absurd h (insertSortedUnique_ne_nil _ _), fun h => by simp at h⟩

/-! ### Concrete evaluations -/

theorem dp0_one : decPlace 0 1 = 1 := by
  rw [decPlace_eval (q := 1) (r := 0) (by norm_num) (by norm_num) (by norm_num)]
  decide

theorem dp0_two : decPlace 0 2 = 1 := by
  rw [decPlace_eval (q := 2) (r := 0) (by norm_num) (by norm_num) (by norm_num)]
  decide

theorem dp0_three : decPlace 0 3 = 1 := by
  rw [decPlace_eval (q := 3) (r := 0) (by norm_num) (by norm_num) (by norm_num)]
  decide

theorem dp0_five : decPlace 0 5 = 0 := by
  rw [decPlace_eval (q := 5) (r := 1) (by norm_num) (by norm_num) (by norm_num)]
  decide

theorem dp0_zero : decPlace 0 0 = 10 := by rw [decPlace, if_pos rfl]

theorem dp0_tenThousandth : decPlace 0 (1/10000) = 5 := by
  rw [decPlace_eval (q := 1/10000) (r := -4) (by norm_num) (by norm_num) (by norm_num)]
  decide

theorem dp0_hundred : decPlace 0 100 = -1 := by
  rw [decPlace_eval (q := 100) (r := 2) (by norm_num) (by norm_num) (by norm_num)]
  decide

theorem dp0_pi316 : decPlace 0 (316/100) = 1 := by
  rw [decPlace_eval (q := 316/100) (r := 0) (by norm_num) (by norm_num) (by norm_num)]
  decide

theorem dp0_sixteenFifths : decPlace 0 (16/5) = 0 := by
  rw [decPlace_eval (q := 16/5) (r := 1) (by norm_num) (by norm_num) (by norm_num)]
  decide

theorem rt1_one : roundTo 1 1 = 1 := roundTo_exact (m := 10) (by norm_num)

theorem rt1_two : roundTo 1 2 = 2 := roundTo_exact (m := 20) (by norm_num)

theorem rt1_three : roundTo 1 3 = 3 := roundTo_exact (m := 30) (by norm_num)

theorem rt10_zero : roundTo 10 0 = 0 := roundTo_exact (m := 0) (by norm_num)

theorem rt5_tenThousandth : roundTo 5 (1/10000) = 1/10000 :=
  roundTo_exact (m := 10) (by norm_num)

theorem rtm1_hundred : roundTo (-1) 100 = 100 := roundTo_exact (m := 10) (by norm_num)

theorem rt1_pi316 : roundTo 1 (316/100) = 16/5 := by
  rw [roundTo_eval_hi (m := 31) (by norm_num) (by norm_num)]
  norm_num

theorem rt0_sixteenFifths : roundTo 0 (16/5) = 3 := by
  rw [roundTo_eval_lo (m := 3) (by norm_num) (by norm_num)]
  norm_num

theorem plotRound_eval_one : plotRound [1] = [1] := by
  rw [plotRound, show uniqueSorted [1] = [1] from rfl]
  rw [show (([1] : List ℚ).drop 1).map (fun _ => (0:ℚ)) = [] from rfl]
  rw [show (12:ℕ) = 11 + 1 from rfl, plotRoundGo_succ, if_pos (by norm_num)]
  rw [show (-1 + 1 : ℤ) = 0 by norm_num]
  rw [roundPass, List.map_cons, List.map_nil, dp0_one, rt1_one]
  rw [show uniqueSorted [1] = [1] from rfl]
  exact plotRoundGo_exit _ _ _ _ rfl

theorem plotRound_eval_123 : plotRound [1, 2, 3] = [1, 2, 3] := by
  have h1 : uniqueSorted [1, 2, 3] = [1, 2, 3] := by
    norm_num [uniqueSorted, insertSortedUnique]
  rw [plotRound, h1]
  rw [show (([1, 2, 3] : List ℚ).drop 1).map (fun _ => (0:ℚ)) = [0, 0] from rfl]
  rw [show (12:ℕ) = 11 + 1 from rfl, plotRoundGo_succ, if_pos (by norm_num)]
  rw [show (-1 + 1 : ℤ) = 0 by norm_num]
  rw [roundPass, List.map_cons, List.map_cons, List.map_cons, List.map_nil,
    dp0_one, rt1_one, dp0_two, rt1_two, dp0_three, rt1_three, h1]
  exact plotRoundGo_exit _ _ _ _ rfl

theorem plotRoundCount_eval_123 : plotRoundCount [1, 2, 3] = 1 := by
  have h1 : uniqueSorted [1, 2, 3] = [1, 2, 3] := by
    norm_num [uniqueSorted, insertSortedUnique]
  rw [plotRoundCount, h1]
  rw [show (([1, 2, 3] : List ℚ).drop 1).map (fun _ => (0:ℚ)) = [0, 0] from rfl]
  rw [show (12:ℕ) = 11 + 1 from rfl, plotRoundGoCount_succ, if_pos (by norm_num)]
  rw [show (-1 + 1 : ℤ) = 0 by norm_num]
  rw [roundPass, List.map_cons, List.map_cons, List.map_cons, List.map_nil,
    dp0_one, rt1_one, dp0_two, rt1_two, dp0_three, rt1_three, h1]
  rw [show (11:ℕ) = 10 + 1 from rfl, plotRoundGoCount_succ, if_neg (by norm_num)]

theorem plotRound_eval_c9 : plotRound [0, 100, 1/10000] = [0, 1/10000, 100] := by
  have h1 : uniqueSorted [0, 100, 1/10000] = [0, 1/10000, 100] := by
    norm_num [uniqueSorted, insertSortedUnique]
  have h2 : uniqueSorted [0, 1/10000, 100] = [0, 1/10000, 100] := by
    norm_num [uniqueSorted, insertSortedUnique]
  rw [plotRound, h1]
  rw [show (([0, 1/10000, 100] : List ℚ).drop 1).map (fun _ => (0:ℚ)) = [0, 0] from rfl]
  rw [show (12:ℕ) = 11 + 1 from rfl, plotRoundGo_succ, if_pos (by norm_num)]
  rw [show (-1 + 1 : ℤ) = 0 by norm_num]
  rw [roundPass, List.map_cons, List.map_cons, List.map_cons, List.map_nil,
    dp0_zero, rt10_zero, dp0_tenThousandth, rt5_tenThousandth, dp0_hundred,
    rtm1_hundred, h2]
  exact plotRoundGo_exit _ _ _ _ rfl

theorem plotRound_eval_pi316 : plotRound [316/100] = [16/5] := by
  rw [plotRound, show uniqueSorted [316/100] = [316/100] from rfl]
  rw [show (([316/100] : List ℚ).drop 1).map (fun _ => (0:ℚ)) = [] from rfl]
  rw [show (12:ℕ) = 11 + 1 from rfl, plotRoundGo_succ, if_pos (by norm_num)]
  rw [show (-1 + 1 : ℤ) = 0 by norm_num]
  rw [roundPass, List.map_cons, List.map_nil, dp0_pi316, rt1_pi316]
  rw [show uniqueSorted [16/5] = [16/5] from rfl]
  exact plotRoundGo_exit _ _ _ _ rfl

theorem plotRound_eval_sixteenFifths : plotRound [16/5] = [3] := by
  rw [plotRound, show uniqueSorted [16/5] = [16/5] from rfl]
  rw [show (([16/5] : List ℚ).drop 1).map (fun _ => (0:ℚ)) = [] from rfl]
  rw [show (12:ℕ) = 11 + 1 from rfl, plotRoundGo_succ, if_pos (by norm_num)]
  rw [show (-1 + 1 : ℤ) = 0 by norm_num]
  rw [roundPass, List.map_cons, List.map_nil, dp0_sixteenFifths, rt0_sixteenFifths]
  rw [show uniqueSorted [3] = [3] from rfl]
  exact plotRoundGo_exit _ _ _ _ rfl

theorem dp_one_any (d : ℤ) : decPlace d 1 = max (min (d + 1) 10) (-10) := by
  rw [decPlace_eval (q := 1) (r := 0) (by norm_num) (by norm_num) (by norm_num)]
  ring_nf

theorem dp_b_any (d : ℤ) :
    decPlace d (1 + 1/10^15) = max (min (d + 1) 10) (-10) := by
  rw [decPlace_eval (q := 1 + 1/10^15) (r := 0) (by norm_num) (by norm_num) (by norm_num)]
  ring_nf

theorem rt_one_any (p : ℤ) (hp : 0 ≤ p) : roundTo p 1 = 1 := by
  lift p to ℕ using hp
  apply roundTo_exact (m := 10 ^ p)
  push_cast [zpow_natCast]
  ring

theorem rt_b_any (p : ℤ) (hp : 0 ≤ p) (hp10 : p ≤ 10) :
    roundTo p (1 + 1/10^15) = 1 := by
  lift p to ℕ using hp
  have hple : p ≤ 10 := by exact_mod_cast hp10
  have hpow : (0:ℚ) < 10 ^ p := by positivity
  have hb : (10:ℚ) ^ p ≤ 10 ^ 10 := pow_le_pow_right₀ (by norm_num) hple
  have h1 : ((10 ^ p : ℤ) : ℚ) ≤ (1 + 1/10^15) * 10 ^ (p:ℤ) := by
    push_cast [zpow_natCast]
    nlinarith
  have h2 : (1 + 1/10^15) * 10 ^ (p:ℤ) < ((10 ^ p : ℤ) : ℚ) + 1/2 := by
    push_cast [zpow_natCast]
    nlinarith
  rw [roundTo_eval_lo h1 h2]
  push_cast [zpow_natCast]
  exact div_self (ne_of_gt hpow)

theorem pass_b (d : ℤ) (h0 : 0 ≤ d) (h10 : d ≤ 10) :
    uniqueSorted (roundPass d [1, 1 + 1/10^15]) = [1] := by
  have hp : max (min (d + 1) 10) (-10) = min (d + 1) 10 := by omega
  rw [roundPass, List.map_cons, List.map_cons, List.map_nil,
    dp_one_any d, dp_b_any d, hp,
    rt_one_any _ (by omega), rt_b_any _ (by omega) (by omega)]
  norm_num [uniqueSorted, insertSortedUnique]

theorem plotRoundCount_eval_b : plotRoundCount [1, 1 + 1/10^15] = 11 := by
  have h1 : uniqueSorted [1, 1 + 1/10^15] = [1, 1 + 1/10^15] := by
    norm_num [uniqueSorted, insertSortedUnique]
  rw [plotRoundCount, h1]
  rw [show (([1, 1 + 1/10^15] : List ℚ).drop 1).map (fun _ => (0:ℚ)) = [0] from rfl]
  rw [plotRoundGoCount_exhaust [1, 1 + 1/10^15] 12 (-1) [0] (by norm_num)
    (by norm_num) (fun d hd1 hd2 => by rw [pass_b d (by omega) hd2]; norm_num)]
  decide

/-! ### The loop invariant at the top level -/

theorem plotRound_inv (values : List ℚ) :
    List.Sorted (· < ·) (plotRound values) ∧
      ∀ y ∈ plotRound values, ∃ v, v ∈ values ∧ ∃ e : ℤ, 0 ≤ e ∧ e ≤ 10 ∧
        y = roundTo (decPlace e v) v := by
  rcases hn : uniqueSorted values with _ | ⟨a, as⟩
  · have hz : plotRound values = [] := by
      rw [plotRound, hn]
      exact plotRoundGo_exit _ _ _ _ (by simp)
    rw [hz]
    exact ⟨List.sorted_nil, by simp⟩
  · have hsub : ∀ v ∈ (a :: as), v ∈ values :=
      fun v hv => (mem_uniqueSorted v values).mp (hn ▸ hv)
    rw [plotRound, hn]
    rw [show (12:ℕ) = 11 + 1 from rfl, plotRoundGo_succ, if_pos (by simp)]
    exact plotRoundGo_inv values (a :: as) hsub 11 (-1 + 1) _ (by omega)
      (reprInv_pass values (a :: as) hsub (-1 + 1) (by omega) (by omega))

/-! ### Claim theorems -/

/-- C1: for every non-empty input sequence, the output of `_plotRound` is at
most as long as the deduplicated input, and has exactly its length whenever
some digits level `d` in the searched range `0..10` makes the per-value
roundings of the deduplicated input pairwise distinct. -/
theorem plotRound_length_le_and_eq_of_inj (values : List ℚ) (_hne : values ≠ []) :
    (plotRound values).length ≤ (uniqueSorted values).length ∧
      ((∃ d : ℤ, 0 ≤ d ∧ d ≤ 10 ∧ (roundPass d (uniqueSorted values)).Nodup) →
        (plotRound values).length = (uniqueSorted values).length) := by
  constructor
  · rw [plotRound]
    apply plotRoundGo_length_le _ 12 _ _
    simp
  · rintro ⟨d, hd0, hd10, hnd⟩
    rw [plotRound]
    apply plotRoundGo_length_eq _ 12 _ _ (by norm_num) (by simp)
    exact ⟨d, by omega, hd10, hnd⟩

/-- Witness for C1 at the concrete input `[1, 2, 3]`. -/
theorem plotRound_length_le_and_eq_of_inj_witness :
    (plotRound [1, 2, 3]).length ≤ (uniqueSorted [1, 2, 3]).length ∧
      ((∃ d : ℤ, 0 ≤ d ∧ d ≤ 10 ∧ (roundPass d (uniqueSorted [1, 2, 3])).Nodup) →
        (plotRound [1, 2, 3]).length = (uniqueSorted [1, 2, 3]).length) :=
  plotRound_length_le_and_eq_of_inj [1, 2, 3] (by simp)

/-- C2, counterexample: the spec computes the decimal place from
`floor(log10 |v|)` (embedded verbatim as `decPlaceSpec`), but the source
computes it from `around(log10 |v|)` (the nearest integer, embedded as
`decPlace`).  At `v = 5`, `digits = 0`: `log10 5 ≈ 0.699`, so the source
rounds it to `1` and uses decimal place `0`, while the spec's floor gives
`0` and decimal place `1`. -/
theorem decPlace_ne_decPlaceSpec_at_five : decPlace 0 5 ≠ decPlaceSpec 0 5 := by
  have h : Int.log 10 ((5:ℚ)) = 0 := int_log10_eq (by norm_num) (by norm_num) (by norm_num)
  have hspec : decPlaceSpec 0 5 = 1 := by
    rw [decPlaceSpec, if_neg (by norm_num), abs_of_pos (by norm_num : (0:ℚ) < 5), h]
    decide
  rw [dp0_five, hspec]
  decide

/-- C2, amended: for every value `v ≠ 0` and every digits level, the decimal
place `_plotRound` rounds `v` to is `-r + digits + 1` clamped to `[-10, 10]`,
where `r` is `log10 |v|` rounded to the nearest integer, i.e. the integer
with `10 ^ (r - 1/2) ≤ |v| < 10 ^ (r + 1/2)` (stated squared to stay in ℚ).
The spec's `floor` must be read as `round-to-nearest`. -/
theorem decPlace_eq_clamp_of_roundLog (digits : ℤ) (v : ℚ) (hv : v ≠ 0) :
    ∃ r : ℤ, (10:ℚ) ^ (2 * r - 1) ≤ v ^ 2 ∧ v ^ 2 < (10:ℚ) ^ (2 * r + 1) ∧
      decPlace digits v = max (min (-r + digits + 1) 10) (-10) := by
  have habs : |v| ^ 2 = v ^ 2 := sq_abs v
  obtain ⟨h1, h2⟩ := roundLog10_bounds (abs_pos.mpr hv)
  exact ⟨roundLog10 |v|, by rw [← habs]; exact h1, by rw [← habs]; exact h2,
    by rw [decPlace, if_neg hv]⟩

/-- Witness for the amended C2 at `digits = 0`, `v = 5`. -/
theorem decPlace_eq_clamp_of_roundLog_witness :
    ∃ r : ℤ, (10:ℚ) ^ (2 * r - 1) ≤ (5:ℚ) ^ 2 ∧ (5:ℚ) ^ 2 < (10:ℚ) ^ (2 * r + 1) ∧
      decPlace 0 5 = max (min (-r + 0 + 1) 10) (-10) :=
  decPlace_eq_clamp_of_roundLog 0 5 (by norm_num)

/-- C3, counterexample: on `[1, 1 + 10^-15]` every one of the digits levels
`0, 1, ..., 10` leaves the two values rounded to the same number, so the
loop runs a full `11` rounding passes before the guard `digits < 10` stops
it - more than the `10` attempts the claim allows. -/
theorem plotRoundCount_eleven_attempts : plotRoundCount [1, 1 + 1/10^15] = 11 :=
  plotRoundCount_eval_b

/-- C3, amended: the retry loop performs at most `11` rounding passes in
total (an initial attempt at `digits = 0` plus up to ten retries, `digits`
ending at `10`), not `10`. -/
theorem plotRoundCount_le_eleven (values : List ℚ) : plotRoundCount values ≤ 11 := by
  rw [plotRoundCount]
  exact le_trans (plotRoundGoCount_le (uniqueSorted values) 12 (-1) _) (by decide)

/-- C4: the output of `_plotRound` is sorted ascending (strictly, hence with
no duplicates), and every output element is some input value rounded at the
decimal place computed for it at one of the digits levels `0..10`. -/
theorem plotRound_sorted_nodup_repr (values : List ℚ) :
    List.Sorted (· ≤ ·) (plotRound values) ∧ (plotRound values).Nodup ∧
      ∀ y ∈ plotRound values, ∃ v, v ∈ values ∧ ∃ e : ℤ, 0 ≤ e ∧ e ≤ 10 ∧
        y = roundTo (decPlace e v) v := by
  obtain ⟨hs, hr⟩ := plotRound_inv values
  exact ⟨hs.imp (fun h => le_of_lt h), hs.nodup, hr⟩

/-- Witness for C4: the output element `1` of `plotRound [1, 2, 3]` is a
rounded representative of an input value. -/
theorem plotRound_sorted_nodup_repr_witness :
    ∃ v, v ∈ ([1, 2, 3] : List ℚ) ∧ ∃ e : ℤ, 0 ≤ e ∧ e ≤ 10 ∧
      (1:ℚ) = roundTo (decPlace e v) v :=
  (plotRound_sorted_nodup_repr [1, 2, 3]).2.2 1 (by rw [plotRound_eval_123]; simp)

/-- C5: `_plotRound` is total on every finite rational input.  The decimal
place is computed from `|v|`, so it is invariant under sign; the value `0`
(whose `log10` is `-inf`) gets the sentinel decimal place `10` produced by
the clamp; and every computed decimal place lies in `[-10, 10]`, so the
per-value rounding is always well defined and no exception can arise. -/
theorem decPlace_total_safe (digits : ℤ) (v : ℚ) :
    decPlace digits 0 = 10 ∧ decPlace digits (-v) = decPlace digits v ∧
      -10 ≤ decPlace digits v ∧ decPlace digits v ≤ 10 := by
  refine ⟨by rw [decPlace, if_pos rfl], ?_, ?_, ?_⟩
  · by_cases hv : v = 0
    · subst hv; norm_num
    · rw [decPlace, decPlace, if_neg hv, if_neg (neg_ne_zero.mpr hv), abs_neg]
  · rw [decPlace]
    split
    · norm_num
    · exact le_max_right _ _
  · rw [decPlace]
    split
    · norm_num
    · exact max_le (min_le_right _ _) (by norm_num)

/-- C6, counterexample: `_plotRound` is not idempotent.  On `[3.16]` the
first run rounds at decimal place 1 (since `log10 3.16 ≈ 0.49978` rounds to
`0`) and returns `[3.2]`; rounding pushed the value across the half-decade
boundary `sqrt 10`, so the second run sees `log10 3.2 ≈ 0.505`, rounds it
to `1`, uses decimal place 0, and returns `[3.0] ≠ [3.2]`. -/
theorem plotRound_not_idempotent :
    plotRound (plotRound [316/100]) ≠ plotRound [316/100] := by
  rw [plotRound_eval_pi316, plotRound_eval_sixteenFifths]
  simp only [ne_eq, List.cons.injEq, and_true]
  norm_num

/-- C6, amended: re-running `_plotRound` on its own output returns the same
set unchanged provided every output element is a fixed point of the
`digits = 0` rounding pass (i.e. rounding it at the decimal place computed
from its own magnitude leaves it unchanged).  Without that proviso the
output can shift again (see the counterexample). -/
theorem plotRound_idem_of_fixed (values : List ℚ)
    (hfix : ∀ y ∈ plotRound values, roundTo (decPlace 0 y) y = y) :
    plotRound (plotRound values) = plotRound values := by
  have hs : List.Sorted (· < ·) (plotRound values) := (plotRound_inv values).1
  have hu : uniqueSorted (plotRound values) = plotRound values :=
    uniqueSorted_eq_self hs
  rcases hn : plotRound values with _ | ⟨a, as⟩
  · rw [plotRound, show uniqueSorted ([] : List ℚ) = [] from rfl]
    exact plotRoundGo_exit _ _ _ _ (by simp)
  · rw [hn] at hu hfix
    rw [plotRound, hu]
    rw [show (12:ℕ) = 11 + 1 from rfl, plotRoundGo_succ, if_pos (by simp)]
    have hpass : roundPass (-1 + 1) (a :: as) = a :: as := by
      rw [show (-1 + 1 : ℤ) = 0 by norm_num, roundPass, List.map_congr_left hfix]
      exact List.map_id' _
    rw [hpass, hu]
    exact plotRoundGo_exit _ _ _ _ rfl

/-- Witness for the amended C6 at the concrete input `[1]`. -/
theorem plotRound_idem_of_fixed_witness :
    plotRound (plotRound [1]) = plotRound [1] := by
  apply plotRound_idem_of_fixed [1]
  rw [plotRound_eval_one]
  intro y hy
  rw [List.mem_singleton] at hy
  subst hy
  rw [dp0_one, rt1_one]

/-- C7: `_plotRound` is deterministic and depends on nothing but its
argument; in fact it depends only on the set of values in the argument, so
any two runs on inputs with the same elements (in particular on equal
inputs) return equal outputs. -/
theorem plotRound_deterministic (l₁ l₂ : List ℚ) (hm : ∀ a, a ∈ l₁ ↔ a ∈ l₂) :
    plotRound l₁ = plotRound l₂ := by
  rw [plotRound, plotRound, uniqueSorted_mem_iff_eq hm]

/-- Witness for C7: `[2, 1]` and `[1, 2, 2]` hold the same values. -/
theorem plotRound_deterministic_witness : plotRound [2, 1] = plotRound [1, 2, 2] :=
  plotRound_deterministic [2, 1] [1, 2, 2] (fun a => by
    simp only [List.mem_cons, List.not_mem_nil, or_false]
    tauto)

/-- C8: on `[1.0, 2.0, 3.0]` the very first pass (digits = 0) already keeps
all three values distinct, so `_plotRound` performs exactly one attempt and
returns `[1.0, 2.0, 3.0]`. -/
theorem plotRound_one_two_three :
    plotRound [1, 2, 3] = [1, 2, 3] ∧ plotRoundCount [1, 2, 3] = 1 :=
  ⟨plotRound_eval_123, plotRoundCount_eval_123⟩

/-- C9: on an input holding `0.0` together with `100.0` and `0.0001`,
`_plotRound` handles the zero without failure and returns three distinct
rounded values. -/
theorem plotRound_with_zero_three_values :
    plotRound [0, 100, 1/10000] = [0, 1/10000, 100] ∧
      (plotRound [0, 100, 1/10000]).length = 3 := by
  refine ⟨plotRound_eval_c9, ?_⟩
  rw [plotRound_eval_c9]
  rfl

/-- C10: `calc_isolines` raises `ValueError` whenever `iso_range` is `None`,
or `iso_range` has exactly one element while `num != 1`, or `iso_range` has
exactly two elements while `num` is `None`; the guards run before anything
else in the method, so the isoline state is returned unmodified in all
those cases. -/
theorem calcIsolines_guard_raises {σ : Type} (body : σ → σ) (st : σ)
    (iso_range : Option (List ℚ)) (num : Option ℤ)
    (h : iso_range = Option.none ∨
      (∃ a, iso_range = some [a] ∧ num ≠ some 1) ∨
      (∃ a b, iso_range = some [a, b] ∧ num = Option.none)) :
    (calcIsolinesRun body st iso_range num).1 = st ∧
      (calcIsolinesRun body st iso_range num).2.isSome := by
  rcases h with rfl | ⟨a, rfl, hnum⟩ | ⟨a, b, rfl, rfl⟩
  · exact ⟨rfl, rfl⟩
  · rw [calcIsolinesRun, calcIsolinesGuard, if_pos ⟨rfl, hnum⟩]
    exact ⟨rfl, rfl⟩
  · rw [calcIsolinesRun, calcIsolinesGuard, if_neg (by simp), if_pos ⟨rfl, rfl⟩]
    exact ⟨rfl, rfl⟩

/-- Witness for C10: `iso_range = None` raises and leaves the state alone. -/
theorem calcIsolines_guard_raises_witness :
    (calcIsolinesRun (fun s : List ℚ => 99 :: s) [] Option.none (some 15)).1 = [] ∧
      (calcIsolinesRun (fun s : List ℚ => 99 :: s) [] Option.none (some 15)).2.isSome :=
  calcIsolines_guard_raises _ _ _ _ (Or.inl rfl)

end CoolPlot
